import Mathlib

/-!
# fast-bc: the command-line driver `main` (src/main.cpp)

A shallow embedding of `main`: the seed-list parsing loop over a
`std::stringstream`, the validation of seeds against the executor count, the
checks on the output and input files, the call of the clustered Brandes
computation and the result writer.

The C++ standard library pieces that `main` calls on the seed string
(`operator>>` for an unsigned integer, `peek`, `ignore`, `std::set::insert`)
are embedded with their "C"-locale, `std::dec` semantics.  The collaborators
that are not part of `main` (option parsing by popl, the file system, the
clock, the graph loader and `computeBC`) appear as inputs of the model.
-/

namespace FastBC

/-! ## Platform types -/

/-- Bit widths of the two platform-dependent unsigned types `main` uses:
`std::mt19937::result_type` (`uint_fast32_t`, at least 32 bits) and `size_t`
(the type of `seed.size()`, at least as wide as `int`). -/
structure Target where
  seedBits : Nat
  sizeBits : Nat
  seed_ge : 32 ≤ seedBits
  size_ge : 32 ≤ sizeBits

/-- LP64 with glibc: `uint_fast32_t` and `size_t` are both 64 bits wide. -/
def lp64 : Target := ⟨64, 64, by decide, by decide⟩

/-- Targets where `uint_fast32_t` is 32 bits wide and `size_t` 64 bits. -/
def llp64 : Target := ⟨32, 64, by decide, by decide⟩

/-- Largest value of the seed type, `numeric_limits<result_type>::max()`. -/
def Target.seedMax (T : Target) : Nat := 2 ^ T.seedBits - 1

/-- Conversion of an `int` to `size_t` (the usual arithmetic conversion applied
to `louvainExecutors` in `seed.size() != louvainExecutors`). -/
def Target.toSizeT (T : Target) (e : Int) : Nat := (e % (2 ^ T.sizeBits : Int)).toNat

/-- Conversion of the clock's tick count to the seed type. -/
def Target.toSeed (T : Target) (t : Int) : Nat := (t % (2 ^ T.seedBits : Int)).toNat

/-! ## The string stream -/

/-- State of `std::stringstream ss(louvainSeed)`: the characters not yet read
and the two state bits the code can observe. -/
structure IStream where
  buf : List Char
  eofbit : Bool
  failbit : Bool
deriving DecidableEq, Repr

/-- A freshly constructed stream over a string. -/
def IStream.ofChars (cs : List Char) : IStream := ⟨cs, false, false⟩

/-- Member `good()`: no state bit is set. -/
def IStream.good (s : IStream) : Bool := !s.eofbit && !s.failbit

/-- Whitespace of the "C" locale (`isspace`): space, \t, \n, \v, \f, \r. -/
def isspace (c : Char) : Bool :=
  c == ' ' || (9 ≤ c.toNat && c.toNat ≤ 13)

/-- Value of a decimal digit character, `none` for any other character. -/
def digitVal (c : Char) : Option Nat :=
  if 48 ≤ c.toNat ∧ c.toNat ≤ 57 then some (c.toNat - 48) else none

/-- The whitespace skipping done by the sentry of a formatted input. -/
def skipWs : List Char → List Char
  | [] => []
  | c :: cs => if isspace c then skipWs cs else c :: cs

/-- Leading zeros of `num_get` in base 10: every `0` is consumed and counted;
returns the rest, `found_zero` and `sep_pos`. -/
def zeroLoop : List Char → Bool → Nat → List Char × Bool × Nat
  | [], fz, sp => ([], fz, sp)
  | c :: cs, fz, sp => if c == '0' then zeroLoop cs true (sp + 1) else (c :: cs, fz, sp)

/-- Digit accumulation of `num_get` in base 10 for an unsigned type with
largest value `max`: returns the rest, the accumulated result, the overflow
flag and `sep_pos`. -/
def digitLoop (max : Nat) : List Char → Nat → Bool → Nat → List Char × Nat × Bool × Nat
  | [], r, ov, sp => ([], r, ov, sp)
  | c :: cs, r, ov, sp =>
    match digitVal c with
    | none => (c :: cs, r, ov, sp)
    | some d =>
      if r > max / 10 then digitLoop max cs r true sp
      else digitLoop max cs ((r * 10 + d) % (max + 1)) (ov || decide (r * 10 > max - d)) (sp + 1)

/-- The extraction `num_get::get` of an unsigned integer from a non-empty
character sequence: an optional sign, leading zeros, digits.  Returns the
unread rest and the value, `none` when the conversion fails (no digit at all,
or a value above `max`).  A leading `-` negates the value in the unsigned
type. -/
def numGet (T : Target) (b : List Char) : List Char × Option Nat :=
  let signed : Bool × List Char :=
    match b with
    | c :: cs => if c == '-' then (true, cs) else if c == '+' then (false, cs) else (false, b)
    | [] => (false, [])
  let z := zeroLoop signed.2 false 0
  let d := digitLoop T.seedMax z.1 0 false z.2.2
  if d.2.2.2 == 0 && !z.2.1 then (d.1, none)
  else if d.2.2.1 then (d.1, none)
  else (d.1, some (if signed.1 then (2 ^ T.seedBits - d.2.1) % 2 ^ T.seedBits else d.2.1))

/-- The formatted input `ss >> s` for `std::mt19937::result_type s`.  Returns
the stream afterwards and the value read, `none` when the stream is failed
afterwards (so that `while (ss >> s)` ends). -/
def extractUnsigned (T : Target) (s : IStream) : IStream × Option Nat :=
  if !s.good then ({ s with failbit := true }, none)
  else
    let b := skipWs s.buf
    if b.isEmpty then (⟨[], true, true⟩, none)
    else
      let r := numGet T b
      (⟨r.1, r.1.isEmpty, r.2.isNone⟩, r.2)

/-- Member `peek()`: the next character without consuming it; on a stream that
is not good it sets `failbit`, at the end of the buffer it sets `eofbit`. -/
def peek (s : IStream) : IStream × Option Char :=
  if !s.good then ({ s with failbit := true }, none)
  else
    match s.buf with
    | [] => ({ s with eofbit := true }, none)
    | c :: _ => (s, some c)

/-- Member `ignore()`: discards one character. -/
def ignore (s : IStream) : IStream :=
  if !s.good then { s with failbit := true }
  else
    match s.buf with
    | [] => { s with eofbit := true }
    | _ :: cs => { s with buf := cs }

/-! ## The seed set -/

/-- A `std::set<result_type>`: its elements in ascending order. -/
abbrev SeedSet := List Nat

/-- Member `insert`: the set afterwards and the `.second` of the returned pair,
which tells whether the value was new. -/
def setInsert (x : Nat) (s : SeedSet) : SeedSet × Bool :=
  if x ∈ s then (s, false) else (s.orderedInsert (· ≤ ·) x, true)

/-! ## The seed parsing loop (main.cpp, lines 110-125) -/

/-- How the loop `while (ss >> s)` ends. -/
inductive SeedParse where
  | duplicate : SeedParse
  | done (seed : SeedSet) : SeedParse
  | diverged : SeedParse
deriving DecidableEq, Repr

/-- The loop `while (ss >> s) { if (!seed.insert(s).second) return -1;
if (ss.peek() == ',') ss.ignore(); }`, with a bound on the number of
iterations; `diverged` is returned when the bound is used up. -/
def seedLoop (T : Target) : Nat → IStream → SeedSet → SeedParse
  | 0, _, _ => .diverged
  | fuel + 1, ss, seed =>
    match extractUnsigned T ss with
    | (_, none) => .done seed
    | (ss1, some s) =>
      match setInsert s seed with
      | (_, false) => .duplicate
      | (seed1, true) =>
        let p := peek ss1
        seedLoop T fuel (if p.2 == some ',' then ignore p.1 else p.1) seed1

/-- The loop run on the string given with `-s`, starting from the empty set.
Every iteration that goes on consumes a character, so the bound
`length + 1` is never used up (`parseSeeds_terminates`). -/
def parseSeeds (T : Target) (text : List Char) : SeedParse :=
  seedLoop T (text.length + 1) (IStream.ofChars text) []

/-! ## Inputs of `main` -/

/-- What `op.parse(argc, argv)` leaves behind when it does not throw: the
option variables and the positional arguments.  `louvainSeed` is `some` exactly
when `ls->is_set()`, `louvainExecutors` is `some` exactly when `le->is_set()`
(the variable holds the default 4 otherwise). -/
structure Options (P : Type) where
  louvainSeed : Option (List Char)
  louvainExecutors : Option Int
  louvainPrecision : P
  outBCPath : String
  loggerLevel : String
  nonOptionArgs : List String

/-- Outcome of `op.parse`: it throws `popl::invalid_option` or fills the
option variables. -/
inductive CommandLine (P : Type) where
  | invalidOption : CommandLine P
  | parsed (o : Options P) : CommandLine P

/-- Value of the variable `louvainExecutors` after parsing. -/
def Options.executors {P : Type} (o : Options P) : Int := o.louvainExecutors.getD 4

/-- The surroundings `main` interacts with: `outputReadable p` is
`std::ifstream(p).good()`, the probe of line 93; `outputOpens p` tells whether
`std::ofstream(p)` of line 202 opens, which `main` never tests; `graphOpens p`
is `is_open()` of the edge-list stream, `loadGraph` is the `DirectedWeightedGraph` constructor and `computeBC`
the clustered Brandes computation built from the seed set and the precision
(`none` when they throw), `clock i` is the tick count of the `i`-th reading of
the high-resolution clock and `fmt` the text `operator<<` writes for a value. -/
structure Env (G W P : Type) where
  outputReadable : String → Bool
  outputOpens : String → Bool
  graphOpens : String → Bool
  loadGraph : String → Option G
  computeBC : SeedSet → P → G → Option (List W)
  clock : Nat → Int
  fmt : W → List Char

/-- The observable steps of `main`, in program order. -/
inductive Event (P : Type) where
  | probeOutput (path : String) : Event P
  | openGraphFile (path : String) : Event P
  | buildGraph : Event P
  | newLouvainEvaluator (seed : SeedSet) (precision : P) : Event P
  | newClusterEvaluator : Event P
  | newPivotSelector : Event P
  | newSingleSourceBC : Event P
  | newClusteredBC : Event P
  | callComputeBC : Event P
  | computeBCReturned (size : Nat) : Event P
  | openOutput (path : String) : Event P
  | write (text : List Char) : Event P

/-- How a run of `main` ends: it returns an exit code, an exception of a
collaborator escapes it, or the seed loop does not end. -/
inductive Outcome where
  | exit (code : Int) : Outcome
  | crashed : Outcome
  | diverged : Outcome
deriving DecidableEq, Repr

/-- Result of the block "Initialize louvain seeds". -/
inductive SeedInit where
  | ready (seed : SeedSet) : SeedInit
  | stop (o : Outcome) : SeedInit
deriving DecidableEq, Repr

/-- The default branch, lines 135-138: `louvainExecutors` clock readings are
inserted into the set. -/
def clockSeeds (T : Target) (clock : Nat → Int) (executors : Int) : SeedSet :=
  (List.range executors.toNat).foldl (fun seed i => (setInsert (T.toSeed (clock i)) seed).1) []

/-- Lines 100-139 of `main`: the seed set from `-s`, checked against `-e`, or
from the clock. -/
def initSeeds {P : Type} (T : Target) (o : Options P) (clock : Nat → Int) : SeedInit :=
  match o.louvainSeed with
  | some text =>
    match o.louvainExecutors with
    | none => .stop (.exit (-1))
    | some e =>
      match parseSeeds T text with
      | .duplicate => .stop (.exit (-1))
      | .diverged => .stop .diverged
      | .done seed => if seed.length != T.toSizeT e then .stop (.exit (-1)) else .ready seed
  | none => .ready (clockSeeds T clock o.executors)

/-- The result writer, lines 202-206: one `outFile << bc[i] << std::endl` per
index, in increasing index order. -/
def writeResults {W P : Type} (fmt : W → List Char) (bc : List W) : List (Event P) :=
  bc.map (fun x => Event.write (fmt x ++ ['\n']))

/-- The steps between opening the graph file and calling `computeBC`, lines
159-191. -/
def coreSetup {P : Type} (seed : SeedSet) (precision : P) : List (Event P) :=
  [.buildGraph, .newLouvainEvaluator seed precision, .newClusterEvaluator, .newPivotSelector,
   .newSingleSourceBC, .newClusteredBC, .callComputeBC]

/-- Lines 150-210 of `main`: the edge-list file is opened, the graph and the
components of the core are built, `computeBC` is called and its result is
written. -/
def runCore {G W P : Type} (o : Options P) (env : Env G W P) (edgeListPath : String)
    (seed : SeedSet) : List (Event P) × Outcome :=
  if !env.graphOpens edgeListPath then ([.openGraphFile edgeListPath], .exit (-1))
  else
    match env.loadGraph edgeListPath with
    | none => ([.openGraphFile edgeListPath, .buildGraph], .crashed)
    | some g =>
      match env.computeBC seed o.louvainPrecision g with
      | none => (.openGraphFile edgeListPath :: coreSetup seed o.louvainPrecision, .crashed)
      | some bc =>
        (.openGraphFile edgeListPath :: coreSetup seed o.louvainPrecision
          ++ .computeBCReturned bc.length :: .openOutput o.outBCPath
          :: writeResults env.fmt bc, .exit 0)

/-- The function `main`: the steps it performs and how it ends. -/
def main {G W P : Type} (T : Target) (cmd : CommandLine P) (env : Env G W P) :
    List (Event P) × Outcome :=
  match cmd with
  | .invalidOption => ([], .exit (-1))
  | .parsed o =>
    match o.nonOptionArgs with
    | [edgeListPath] =>
      if env.outputReadable o.outBCPath then ([.probeOutput o.outBCPath], .exit (-2))
      else
        match initSeeds T o env.clock with
        | .stop r => ([.probeOutput o.outBCPath], r)
        | .ready seed =>
          (.probeOutput o.outBCPath :: (runCore o env edgeListPath seed).1,
            (runCore o env edgeListPath seed).2)
    | _ => ([], .exit (-1))

/-! ## Observations on a run -/

/-- The step opens the edge-list file. -/
def Event.opensGraph {P : Type} : Event P → Bool
  | .openGraphFile _ => true
  | _ => false

/-- The step builds the graph or a component of the core, or calls or leaves
`computeBC`. -/
def Event.isCore {P : Type} : Event P → Bool
  | .buildGraph => true
  | .newLouvainEvaluator _ _ => true
  | .newClusterEvaluator => true
  | .newPivotSelector => true
  | .newSingleSourceBC => true
  | .newClusteredBC => true
  | .callComputeBC => true
  | .computeBCReturned _ => true
  | _ => false

/-- The step opens the output file for writing or writes to it. -/
def Event.isWrite {P : Type} : Event P → Bool
  | .openOutput _ => true
  | .write _ => true
  | _ => false

/-- The step is the return of `computeBC`. -/
def Event.isReturn {P : Type} : Event P → Bool
  | .computeBCReturned _ => true
  | _ => false

/-- The texts written to the output file, in the order of the writes. -/
def written {P : Type} : List (Event P) → List (List Char)
  | [] => []
  | .write t :: evs => t :: written evs
  | _ :: evs => written evs

/-- The option values are values of their C++ types: the executor count is an
`int` (32 bits), and the seed string, like every string of the process, is
shorter than half the range of `size_t`. -/
def Options.representable {P : Type} (T : Target) (o : Options P) : Bool :=
  (match o.louvainExecutors with
    | none => true
    | some e => decide (-(2 : Int) ^ 31 ≤ e ∧ e < (2 : Int) ^ 31))
  && (match o.louvainSeed with
    | none => true
    | some text => decide (text.length < 2 ^ (T.sizeBits - 1)))

/-! ## Reading of the seed list, for the statements -/

/-- One pass of the loop as the stream sees it: the value read and the stream
after the optional comma has been skipped; `none` when the extraction fails. -/
def nextSeed (T : Target) (ss : IStream) : Option (Nat × IStream) :=
  match extractUnsigned T ss with
  | (_, none) => none
  | (ss1, some s) =>
    let p := peek ss1
    some (s, if p.2 == some ',' then ignore p.1 else p.1)

/-- The values the loop extracts one after the other, up to the first
extraction that fails. -/
def readLoop (T : Target) : Nat → IStream → List Nat
  | 0, _ => []
  | fuel + 1, ss =>
    match nextSeed T ss with
    | none => []
    | some (v, ss1) => v :: readLoop T fuel ss1

/-- The seeds the loop reads from a stream. -/
def readFrom (T : Target) (ss : IStream) : List Nat := readLoop T (ss.buf.length + 1) ss

/-- The seeds the loop reads from the string given with `-s`. -/
def readSeeds (T : Target) (text : List Char) : List Nat := readFrom T (IStream.ofChars text)

/-- Insertion of a sequence of values into a seed set, stopping at the first
one already present. -/
def insertAll : List Nat → SeedSet → SeedParse
  | [], seed => .done seed
  | v :: vs, seed => if v ∈ seed then .duplicate else insertAll vs (seed.orderedInsert (· ≤ ·) v)

/-- Decimal text of a seed value, as `std::to_string` or `operator<<` write it. -/
def decimal (n : Nat) : List Char := Nat.toDigits 10 n

/-- A separator between two seeds: a comma, whitespace, or a comma followed by
whitespace. -/
def isSep (sep : List Char) : Bool :=
  match sep with
  | [] => false
  | c :: cs => (c == ',' || isspace c) && cs.all isspace

/-- Text of the seeds that follow the first one, each with the separator in
front of it. -/
def sepTail : List (List Char × Nat) → List Char
  | [] => []
  | p :: rest => p.1 ++ decimal p.2 ++ sepTail rest

/-- A well-formed seed list: the first seed, then separator and seed pairs. -/
def seedListText (n0 : Nat) (rest : List (List Char × Nat)) : List Char :=
  decimal n0 ++ sepTail rest

/-- The seed values of a well-formed seed list, in the order written. -/
def seedListValues (n0 : Nat) (rest : List (List Char × Nat)) : List Nat :=
  n0 :: rest.map Prod.snd

/-- The text does not go on with a digit. -/
def noDigitAhead (tail : List Char) : Bool :=
  match tail with
  | [] => true
  | c :: _ => (digitVal c).isNone

/-- The text the loop faces after a seed: one comma directly after the seed is
skipped. -/
def dropComma (tail : List Char) : List Char :=
  match tail with
  | [] => []
  | c :: cs => if c == ',' then cs else c :: cs

/-- The loop cannot read a further seed from what follows the last one: the
extraction fails on it (nothing but whitespace is left, the next field is
empty or no number, or the number does not fit the seed type). -/
def unreadable (T : Target) (junk : List Char) : Bool :=
  (extractUnsigned T (IStream.ofChars (dropComma junk))).2.isNone

/-- The stream at the start of the next pass, when `tail` is what follows the
seed just read: at the end of the string `eofbit` is set by the extraction and
`failbit` by `peek`. -/
def afterSeed (tail : List Char) : IStream :=
  if tail.isEmpty then ⟨[], true, true⟩ else IStream.ofChars (dropComma tail)

/-- Value of a sequence of decimal digits, most significant first, continuing
from the value `r` read so far. -/
def digitsValue (r : Nat) (ds : List Nat) : Nat := ds.foldl (fun a d => a * 10 + d) r

/-- The seed values written in a seed list, taken the way the interface
describes the list ("comma/whitespace-separated"): the text is cut at every
comma and whitespace character, and each field that is a decimal numeral
contributes its value. -/
def listedSeeds (text : List Char) : List Nat :=
  ((text.splitOnP (fun c => c == ',' || isspace c)).filter
      (fun f => !f.isEmpty && f.all (fun c => (digitVal c).isSome))).map
    (fun f => digitsValue 0 (f.map (fun c => c.toNat - 48)))

/-- The characters the result writer inserts into the output stream, in the
order of the insertions. -/
def emitted {P : Type} (trace : List (Event P)) : List Char :=
  (written trace).foldr (fun t acc => t ++ acc) []

/-- What a run leaves in the output file: the characters inserted into the
stream when the `ofstream` of line 202 opened, and nothing when it did not (a
stream that failed to open drops every insertion, and `main` goes on without
testing it). -/
def fileContent {G W P : Type} (env : Env G W P) (o : Options P) (trace : List (Event P)) :
    List Char :=
  if env.outputOpens o.outBCPath then emitted trace else []

/-- The lines of a text: its runs of characters up to each newline (and a last,
unterminated run if there is one). -/
def linesOf : List Char → List (List Char)
  | [] => []
  | c :: cs =>
    if c == '\n' then [] :: linesOf cs
    else
      match linesOf cs with
      | [] => [[c]]
      | l :: ls => (c :: l) :: ls

/-! ## Example runs -/

/-- Surroundings for the examples: the output file does not exist yet and can
be created, every edge-list path opens, the loaded graph is its path, `computeBC` returns the
seeds as scores, and the clock advances by one tick per reading. -/
def demoEnv : Env String Nat Unit :=
  { outputReadable := fun _ => false, outputOpens := fun _ => true, graphOpens := fun _ => true,
    loadGraph := fun p => some p,
    computeBC := fun seed _ _ => some seed, clock := fun i => 1000 + i, fmt := decimal }

/-- The surroundings of `demoEnv`, with the output file already there. -/
def demoEnvOutputExists : Env String Nat Unit :=
  { demoEnv with outputReadable := fun _ => true }

/-- The surroundings of `demoEnv`, with an output path that cannot be opened for
writing (as `-o nodir/bc.txt`). -/
def demoEnvNoOutput : Env String Nat Unit :=
  { demoEnv with outputOpens := fun _ => false }

/-- The surroundings of `demoEnv`, with a clock that shows the same tick at
every reading. -/
def demoEnvCoarseClock : Env String Nat Unit :=
  { demoEnv with clock := fun _ => 1000 }

/-- The command line `fastbc [-s seeds] [-e executors] graph.txt`. -/
def demoOptions (seeds : Option (List Char)) (executors : Option Int) : Options Unit :=
  ⟨seeds, executors, (), "bc.txt", "info", ["graph.txt"]⟩

/-! ## Facts about the stream operations -/

theorem skipWs_length_le (cs : List Char) : (skipWs cs).length ≤ cs.length := by
  induction cs with
  | nil => simp [skipWs]
  | cons c cs ih =>
    simp only [skipWs]
    split
    · simp only [List.length_cons]; omega
    · simp

theorem zeroLoop_count (cs : List Char) (fz : Bool) (sp : Nat) :
    (zeroLoop cs fz sp).1.length + (zeroLoop cs fz sp).2.2 = cs.length + sp
    ∧ ((zeroLoop cs fz sp).2.1 = true → fz = true ∨ sp < (zeroLoop cs fz sp).2.2)
    ∧ sp ≤ (zeroLoop cs fz sp).2.2 := by
  induction cs generalizing fz sp with
  | nil => simp [zeroLoop]
  | cons c cs ih =>
    simp only [zeroLoop]
    split
    · obtain ⟨h1, _, h3⟩ := ih true (sp + 1)
      refine ⟨by simp only [List.length_cons]; omega, fun _ => Or.inr ?_, ?_⟩ <;> omega
    · simp

theorem digitLoop_sp_le (max : Nat) (cs : List Char) (r : Nat) (ov : Bool) (sp : Nat) :
    sp ≤ (digitLoop max cs r ov sp).2.2.2 := by
  induction cs generalizing r ov sp with
  | nil => simp [digitLoop]
  | cons c cs ih =>
    simp only [digitLoop]
    split
    · exact Nat.le_refl _
    · split
      · exact ih _ _ _
      · exact Nat.le_trans (Nat.le_succ sp) (ih _ _ _)

theorem digitLoop_sticky (max : Nat) (cs : List Char) (r sp : Nat) :
    (digitLoop max cs r true sp).2.2.1 = true := by
  induction cs generalizing r sp with
  | nil => simp [digitLoop]
  | cons c cs ih =>
    simp only [digitLoop]
    split
    · rfl
    · split
      · exact ih _ _
      · simpa using ih _ _

theorem digitLoop_count (max : Nat) (cs : List Char) (r : Nat) (ov : Bool) (sp : Nat)
    (h : (digitLoop max cs r ov sp).2.2.1 = false) :
    (digitLoop max cs r ov sp).1.length + (digitLoop max cs r ov sp).2.2.2 = cs.length + sp := by
  induction cs generalizing r ov sp with
  | nil => simp [digitLoop]
  | cons c cs ih =>
    simp only [digitLoop] at h ⊢
    split
    · rfl
    · rename_i d hd
      simp only [hd] at h
      split
      · rename_i hgt
        simp only [hgt, if_true] at h
        rw [digitLoop_sticky] at h
        exact absurd h (by simp)
      · rename_i hgt
        simp only [hgt, if_false] at h
        have := ih _ _ _ h
        simp only [List.length_cons]
        omega

/-- A successful extraction consumes at least one character. -/
theorem numGet_length (T : Target) (b : List Char) (v : Nat) (h : (numGet T b).2 = some v) :
    (numGet T b).1.length < b.length := by
  unfold numGet at h ⊢
  simp only at h ⊢
  generalize hsg : (match b with
    | c :: cs => if c == '-' then (true, cs) else if c == '+' then (false, cs) else (false, b)
    | [] => (false, [])) = signed at h ⊢
  have hlen : signed.2.length ≤ b.length := by
    subst hsg
    cases b with
    | nil => simp
    | cons c cs =>
      simp only
      split
      · simp
      · split <;> simp
  obtain ⟨hz1, hz2, _⟩ := zeroLoop_count signed.2 false 0
  have hmono := digitLoop_sp_le T.seedMax (zeroLoop signed.2 false 0).1 0 false
    (zeroLoop signed.2 false 0).2.2
  split at h
  · simp at h
  · rename_i h1
    split at h
    · simp at h
    · rename_i h2
      have hov : (digitLoop T.seedMax (zeroLoop signed.2 false 0).1 0 false
          (zeroLoop signed.2 false 0).2.2).2.2.1 = false := by simpa using h2
      have hd := digitLoop_count _ _ _ _ _ hov
      simp only [h1, h2, if_false, Bool.false_eq_true]
      simp only [Bool.and_eq_true, beq_iff_eq, Bool.not_eq_true', not_and, Bool.not_eq_false] at h1
      by_cases hsp : (digitLoop T.seedMax (zeroLoop signed.2 false 0).1 0 false
          (zeroLoop signed.2 false 0).2.2).2.2.2 = 0
      · have hfz := h1 hsp
        have := hz2 hfz
        simp at this
        omega
      · omega

theorem extractUnsigned_length (T : Target) (ss : IStream) (v : Nat)
    (h : (extractUnsigned T ss).2 = some v) :
    (extractUnsigned T ss).1.buf.length < ss.buf.length := by
  by_cases hg : ss.good = true
  · by_cases he : (skipWs ss.buf).isEmpty = true
    · simp [extractUnsigned, hg, he] at h
    · simp only [extractUnsigned, hg, he, Bool.not_true, if_false, Bool.false_eq_true] at h ⊢
      have := numGet_length T (skipWs ss.buf) v h
      have := skipWs_length_le ss.buf
      omega
  · simp [extractUnsigned, hg] at h

theorem peek_buf (ss : IStream) : (peek ss).1.buf = ss.buf := by
  unfold peek
  split
  · rfl
  · split <;> simp_all

theorem ignore_length_le (ss : IStream) : (ignore ss).buf.length ≤ ss.buf.length := by
  unfold ignore
  split
  · simp
  · split <;> simp_all

theorem nextSeed_length (T : Target) (ss ss1 : IStream) (v : Nat)
    (h : nextSeed T ss = some (v, ss1)) : ss1.buf.length < ss.buf.length := by
  unfold nextSeed at h
  rcases hx : extractUnsigned T ss with ⟨s1, _ | s⟩
  · simp [hx] at h
  · simp only [hx, Option.some.injEq, Prod.mk.injEq] at h
    have hl := extractUnsigned_length T ss s (by rw [hx])
    rw [hx] at hl
    simp only at hl
    obtain ⟨_, rfl⟩ := h
    split
    · have := ignore_length_le (peek s1).1
      rw [peek_buf] at this
      omega
    · rw [peek_buf]; exact hl

/-- The loop of `main` inserts the values it reads one after the other. -/
theorem seedLoop_eq_insertAll (T : Target) (fuel : Nat) (ss : IStream) (seed : SeedSet)
    (h : ss.buf.length < fuel) :
    seedLoop T fuel ss seed = insertAll (readLoop T fuel ss) seed := by
  induction fuel generalizing ss seed with
  | zero => omega
  | succ fuel ih =>
    rcases hx : extractUnsigned T ss with ⟨s1, _ | s⟩
    · simp [seedLoop, readLoop, nextSeed, hx, insertAll]
    · have hn : nextSeed T ss
          = some (s, if (peek s1).2 == some ',' then ignore (peek s1).1 else (peek s1).1) := by
        simp [nextSeed, hx]
      have hl := nextSeed_length T ss _ s hn
      simp only [seedLoop, readLoop, hx, hn, insertAll, setInsert]
      by_cases hm : s ∈ seed
      · simp [hm]
      · simp only [hm, if_false]
        exact ih _ _ (by omega)

theorem readLoop_fuel (T : Target) (f1 f2 : Nat) (ss : IStream)
    (h1 : ss.buf.length < f1) (h2 : ss.buf.length < f2) :
    readLoop T f1 ss = readLoop T f2 ss := by
  induction f1 generalizing f2 ss with
  | zero => omega
  | succ f1 ih =>
    cases f2 with
    | zero => omega
    | succ f2 =>
      simp only [readLoop]
      rcases hn : nextSeed T ss with _ | ⟨v, s1⟩
      · rfl
      · have hl := nextSeed_length T ss s1 v hn
        simp only [List.cons.injEq, true_and]
        exact ih _ _ (by omega) (by omega)

/-- Unfolding of `readFrom`: the first value read, then the values read from
the stream it leaves. -/
theorem readFrom_eq (T : Target) (ss : IStream) :
    readFrom T ss = match nextSeed T ss with
      | none => []
      | some (v, s1) => v :: readFrom T s1 := by
  unfold readFrom
  simp only [readLoop]
  rcases hn : nextSeed T ss with _ | ⟨v, s1⟩
  · rfl
  · have hl := nextSeed_length T ss s1 v hn
    simp only [List.cons.injEq, true_and]
    exact readLoop_fuel T ss.buf.length (s1.buf.length + 1) s1 (by omega) (by omega)

theorem readLoop_length (T : Target) (fuel : Nat) (ss : IStream) :
    (readLoop T fuel ss).length ≤ ss.buf.length := by
  induction fuel generalizing ss with
  | zero => simp [readLoop]
  | succ fuel ih =>
    simp only [readLoop]
    rcases hn : nextSeed T ss with _ | ⟨v, s1⟩
    · simp
    · have hl := nextSeed_length T ss s1 v hn
      have := ih s1
      simp only [List.length_cons]
      omega

theorem parseSeeds_eq (T : Target) (text : List Char) :
    parseSeeds T text = insertAll (readSeeds T text) [] :=
  seedLoop_eq_insertAll T _ _ _ (by simp [IStream.ofChars])

/-! ## Facts about the seed set -/

theorem insertAll_ne_diverged (vs : List Nat) (seed : SeedSet) :
    insertAll vs seed ≠ .diverged := by
  induction vs generalizing seed with
  | nil => simp [insertAll]
  | cons v vs ih =>
    simp only [insertAll]
    split
    · simp
    · exact ih _

theorem insertAll_duplicate (vs : List Nat) (seed : SeedSet) :
    insertAll vs seed = .duplicate ↔ ¬ (vs.Nodup ∧ ∀ v ∈ vs, v ∉ seed) := by
  induction vs generalizing seed with
  | nil => simp [insertAll]
  | cons v vs ih =>
    simp only [insertAll]
    by_cases hm : v ∈ seed
    · simp only [hm, if_true, true_iff]
      intro h
      exact h.2 v (List.mem_cons_self _ _) hm
    · simp only [hm, if_false, ih, List.nodup_cons, List.mem_cons, List.mem_orderedInsert]
      constructor
      · rintro h ⟨⟨hv, hnd⟩, hall⟩
        apply h
        refine ⟨hnd, fun x hx => ?_⟩
        rintro (rfl | hxs)
        · exact hv hx
        · exact hall x (Or.inr hx) hxs
      · rintro h ⟨hnd, hall⟩
        apply h
        refine ⟨⟨fun hv => hall v hv (Or.inl rfl), hnd⟩, ?_⟩
        rintro x (rfl | hx)
        · exact hm
        · exact fun hxs => hall x hx (Or.inr hxs)

theorem insertAll_done (vs : List Nat) (seed out : SeedSet) (hs : seed.Sorted (· < ·))
    (h : insertAll vs seed = .done out) :
    out.Perm (vs.reverse ++ seed) ∧ out.Sorted (· < ·) := by
  induction vs generalizing seed with
  | nil =>
    simp only [insertAll, SeedParse.done.injEq] at h
    subst h
    simpa using hs
  | cons v vs ih =>
    simp only [insertAll] at h
    by_cases hm : v ∈ seed
    · simp [hm] at h
    · simp only [hm, if_false] at h
      have hle : seed.Sorted (· ≤ ·) := hs.imp (fun h => Nat.le_of_lt h)
      have hs1 : (seed.orderedInsert (· ≤ ·) v).Sorted (· < ·) := by
        have h1 : (seed.orderedInsert (· ≤ ·) v).Sorted (· ≤ ·) := hle.orderedInsert v seed
        have h2 : (seed.orderedInsert (· ≤ ·) v).Nodup :=
          (List.perm_orderedInsert (· ≤ ·) v seed).nodup_iff.mpr
            (List.nodup_cons.mpr ⟨hm, hs.nodup⟩)
        exact h1.lt_of_le h2
      obtain ⟨hp, hso⟩ := ih _ hs1 h
      refine ⟨hp.trans ?_, hso⟩
      simp only [List.reverse_cons, List.append_assoc, List.singleton_append]
      exact List.Perm.append_left _ (List.perm_orderedInsert (· ≤ ·) v seed)

/-! ## Reading a decimal numeral -/

theorem digitsValue_ge (r : Nat) (ds : List Nat) : r ≤ digitsValue r ds := by
  induction ds generalizing r with
  | nil => simp [digitsValue]
  | cons d ds ih =>
    have := ih (r * 10 + d)
    simp only [digitsValue, List.foldl_cons] at this ⊢
    omega

theorem digitVal_digitChar (d : Nat) (h : d < 10) : digitVal (Nat.digitChar d) = some d := by
  interval_cases d <;> rfl

theorem isspace_digitChar (d : Nat) (h : d < 10) : isspace (Nat.digitChar d) = false := by
  interval_cases d <;> rfl

theorem digitChar_ne_sign (d : Nat) (h : d < 10) :
    (Nat.digitChar d == '-') = false ∧ (Nat.digitChar d == '+') = false := by
  interval_cases d <;> exact ⟨rfl, rfl⟩

theorem digitChar_eq_zero (d : Nat) (h : d < 10) : (Nat.digitChar d == '0') = decide (d = 0) := by
  interval_cases d <;> rfl

theorem digitVal_of_isspace (c : Char) (h : isspace c = true) : digitVal c = none := by
  unfold isspace at h
  unfold digitVal
  simp only [Bool.or_eq_true, beq_iff_eq, Bool.and_eq_true, decide_eq_true_eq] at h
  rcases h with rfl | ⟨_, h2⟩
  · rfl
  · rw [if_neg]
    omega

theorem zero_of_digitVal_none (c : Char) (h : digitVal c = none) : (c == '0') = false := by
  cases hc : c == '0'
  · rfl
  · rw [beq_iff_eq] at hc
    subst hc
    exact absurd h (by decide)

/-- The decimal text of a number is a non-empty digit sequence with that value. -/
theorem toDigitsCore_spec (fuel n : Nat) (acc : List Char) (h : n < fuel) :
    ∃ ds : List Nat, ds ≠ [] ∧ (∀ d ∈ ds, d < 10)
      ∧ Nat.toDigitsCore 10 fuel n acc = ds.map Nat.digitChar ++ acc
      ∧ digitsValue 0 ds = n := by
  induction fuel generalizing n acc with
  | zero => omega
  | succ fuel ih =>
    simp only [Nat.toDigitsCore]
    by_cases hq : n / 10 = 0
    · refine ⟨[n % 10], by simp, ?_, by simp [hq], ?_⟩
      · intro d hd
        simp only [List.mem_singleton] at hd
        omega
      · simp only [digitsValue, List.foldl_cons, List.foldl_nil]
        omega
    · obtain ⟨ds, _, hlt, heq, hval⟩ := ih (n / 10) (Nat.digitChar (n % 10) :: acc) (by omega)
      refine ⟨ds ++ [n % 10], by simp, ?_, ?_, ?_⟩
      · intro d hd
        rcases List.mem_append.mp hd with hd | hd
        · exact hlt d hd
        · simp only [List.mem_singleton] at hd
          omega
      · simp [hq, heq]
      · simp only [digitsValue, List.foldl_append, List.foldl_cons, List.foldl_nil] at hval ⊢
        rw [hval]
        omega

theorem decimal_spec (n : Nat) :
    ∃ ds : List Nat, ds ≠ [] ∧ (∀ d ∈ ds, d < 10)
      ∧ decimal n = ds.map Nat.digitChar ∧ digitsValue 0 ds = n := by
  obtain ⟨ds, h1, h2, h3, h4⟩ := toDigitsCore_spec (n + 1) n [] (by omega)
  exact ⟨ds, h1, h2, by simpa [decimal, Nat.toDigits] using h3, h4⟩

theorem digitLoop_digits (max : Nat) (ds : List Nat) (tail : List Char) (r sp : Nat)
    (hlt : ∀ d ∈ ds, d < 10) (hval : digitsValue r ds ≤ max)
    (htail : noDigitAhead tail = true) :
    digitLoop max (ds.map Nat.digitChar ++ tail) r false sp
      = (tail, digitsValue r ds, false, sp + ds.length) := by
  induction ds generalizing r sp with
  | nil =>
    cases tail with
    | nil => simp [digitLoop, digitsValue]
    | cons c cs =>
      simp only [noDigitAhead, Option.isNone_iff_eq_none] at htail
      simp [digitLoop, digitsValue, htail]
  | cons d ds ih =>
    have hd : d < 10 := hlt d (List.mem_cons_self _ _)
    have hge := digitsValue_ge (r * 10 + d) ds
    have hval1 : digitsValue (r * 10 + d) ds ≤ max := by
      simpa [digitsValue] using hval
    have h1 : ¬ r > max / 10 := by
      have : r * 10 ≤ max := by omega
      have := (Nat.le_div_iff_mul_le (by decide : 0 < 10)).mpr this
      omega
    have h2 : ¬ r * 10 > max - d := by omega
    have h3 : (r * 10 + d) % (max + 1) = r * 10 + d := Nat.mod_eq_of_lt (by omega)
    simp only [List.map_cons, List.cons_append, digitLoop, digitVal_digitChar d hd, h1, if_false,
      h2, decide_False, Bool.or_false, h3, List.append_eq]
    rw [ih (r * 10 + d) (sp + 1) (fun x hx => hlt x (List.mem_cons_of_mem _ hx)) hval1]
    simp only [digitsValue, List.foldl_cons, List.length_cons]
    congr 3
    omega

theorem zeroLoop_digits (max : Nat) (ds : List Nat) (tail : List Char) (fz : Bool) (sp : Nat)
    (hlt : ∀ d ∈ ds, d < 10) (hval : digitsValue 0 ds ≤ max)
    (htail : noDigitAhead tail = true) (hne : fz = true ∨ ds ≠ []) :
    let z := zeroLoop (ds.map Nat.digitChar ++ tail) fz sp
    let d := digitLoop max z.1 0 false z.2.2
    d.1 = tail ∧ d.2.1 = digitsValue 0 ds ∧ d.2.2.1 = false ∧ (d.2.2.2 ≠ 0 ∨ z.2.1 = true) := by
  induction ds generalizing fz sp with
  | nil =>
    have hfz : fz = true := by simpa using hne
    have hz : zeroLoop tail fz sp = (tail, fz, sp) := by
      cases tail with
      | nil => simp [zeroLoop]
      | cons c cs =>
        simp only [noDigitAhead, Option.isNone_iff_eq_none] at htail
        simp [zeroLoop, zero_of_digitVal_none c htail]
    simp only [List.map_nil, List.nil_append, hz]
    have := digitLoop_digits max [] tail 0 sp (by simp) (by simp [digitsValue]) htail
    simp only [List.map_nil, List.nil_append] at this
    rw [this]
    simp [hfz]
  | cons d ds ih =>
    have hd : d < 10 := hlt d (List.mem_cons_self _ _)
    by_cases h0 : d = 0
    · subst h0
      have hz : ((Nat.digitChar 0) == '0') = true := by rfl
      simp only [List.map_cons, List.cons_append, zeroLoop, hz, if_true, List.append_eq]
      have hval1 : digitsValue 0 ds ≤ max := by simpa [digitsValue] using hval
      have := ih true (sp + 1) (fun x hx => hlt x (List.mem_cons_of_mem _ hx)) hval1 (Or.inl rfl)
      simpa [digitsValue] using this
    · have hz : ((Nat.digitChar d) == '0') = false := by
        rw [digitChar_eq_zero d hd]; simp [h0]
      simp only [List.map_cons, List.cons_append, zeroLoop, hz, Bool.false_eq_true, if_false,
        List.append_eq]
      have := digitLoop_digits max (d :: ds) tail 0 sp hlt hval htail
      simp only [List.map_cons, List.cons_append] at this
      rw [this]
      simp

/-- Reading a digit sequence that is followed by no further digit gives its
value and leaves what follows. -/
theorem numGet_digits (T : Target) (ds : List Nat) (tail : List Char)
    (hne : ds ≠ []) (hlt : ∀ d ∈ ds, d < 10) (hval : digitsValue 0 ds ≤ T.seedMax)
    (htail : noDigitAhead tail = true) :
    numGet T (ds.map Nat.digitChar ++ tail) = (tail, some (digitsValue 0 ds)) := by
  obtain ⟨d, ds1, rfl⟩ := List.exists_cons_of_ne_nil hne
  have hd : d < 10 := hlt d (List.mem_cons_self _ _)
  obtain ⟨hs1, hs2⟩ := digitChar_ne_sign d hd
  have key := zeroLoop_digits T.seedMax (d :: ds1) tail false 0 hlt hval htail
    (Or.inr (by simp))
  simp only [List.map_cons, List.cons_append] at key
  obtain ⟨k1, k2, k3, k4⟩ := key
  unfold numGet
  simp only [List.map_cons, List.cons_append, hs1, hs2, Bool.false_eq_true, if_false, k1, k2, k3]
  have hc : ((digitLoop T.seedMax
      (zeroLoop (Nat.digitChar d :: (List.map Nat.digitChar ds1 ++ tail)) false 0).1 0 false
      (zeroLoop (Nat.digitChar d :: (List.map Nat.digitChar ds1 ++ tail)) false 0).2.2).2.2.2 == 0
      && !(zeroLoop (Nat.digitChar d :: (List.map Nat.digitChar ds1 ++ tail)) false 0).2.1)
      = false := by
    rcases k4 with k4 | k4
    · simp [k4]
    · simp [k4]
  simp [hc]

theorem skipWs_append (ws rest : List Char) (hws : ws.all isspace = true)
    (hrest : ∀ c, rest.head? = some c → isspace c = false) : skipWs (ws ++ rest) = rest := by
  induction ws with
  | nil =>
    cases rest with
    | nil => rfl
    | cons c cs => simp [skipWs, hrest c rfl]
  | cons w ws ih =>
    simp only [List.all_cons, Bool.and_eq_true] at hws
    simp [skipWs, hws.1, ih hws.2]

/-- The extraction `ss >> s` on a good stream that holds optional whitespace,
then the decimal text of `n`, then something that does not go on with a digit:
it yields `n` and leaves the rest; `eofbit` is set when nothing is left. -/
theorem extractUnsigned_decimal (T : Target) (ws tail : List Char) (n : Nat)
    (hws : ws.all isspace = true) (hn : n ≤ T.seedMax) (htail : noDigitAhead tail = true) :
    extractUnsigned T (IStream.ofChars (ws ++ (decimal n ++ tail)))
      = (⟨tail, tail.isEmpty, false⟩, some n) := by
  obtain ⟨ds, hne, hlt, htxt, hval⟩ := decimal_spec n
  obtain ⟨d, ds1, rfl⟩ := List.exists_cons_of_ne_nil hne
  have hsk : skipWs (ws ++ (decimal n ++ tail)) = decimal n ++ tail := by
    apply skipWs_append ws _ hws
    intro c hc
    rw [htxt] at hc
    simp only [List.map_cons, List.cons_append, List.head?_cons, Option.some.injEq] at hc
    subst hc
    exact isspace_digitChar d (hlt d (List.mem_cons_self _ _))
  have hget := numGet_digits T (d :: ds1) tail hne hlt (by rw [hval]; exact hn) htail
  rw [← htxt, hval] at hget
  have hne2 : (decimal n ++ tail).isEmpty = false := by
    rw [htxt]; rfl
  simp [extractUnsigned, IStream.ofChars, IStream.good, hsk, hget, hne2]

theorem nextSeed_decimal (T : Target) (ws tail : List Char) (n : Nat)
    (hws : ws.all isspace = true) (hn : n ≤ T.seedMax) (htail : noDigitAhead tail = true) :
    nextSeed T (IStream.ofChars (ws ++ (decimal n ++ tail))) = some (n, afterSeed tail) := by
  unfold nextSeed
  rw [extractUnsigned_decimal T ws tail n hws hn htail]
  cases tail with
  | nil => simp [peek, IStream.good, afterSeed]
  | cons c cs =>
    by_cases hc : c = ','
    · subst hc
      simp [peek, ignore, IStream.good, afterSeed, dropComma, IStream.ofChars]
    · simp [peek, IStream.good, afterSeed, dropComma, IStream.ofChars, hc]

theorem readFrom_afterSeed_nil (T : Target) : readFrom T (afterSeed []) = [] := by
  rw [readFrom_eq]
  simp [afterSeed, nextSeed, extractUnsigned, IStream.good]

theorem noDigitAhead_sep (sep rest : List Char) (h : isSep sep = true) :
    noDigitAhead (sep ++ rest) = true := by
  cases sep with
  | nil => simp [isSep] at h
  | cons c cs =>
    simp only [isSep, Bool.and_eq_true, Bool.or_eq_true, beq_iff_eq] at h
    simp only [List.cons_append, noDigitAhead, Option.isNone_iff_eq_none]
    rcases h.1 with rfl | hc
    · rfl
    · exact digitVal_of_isspace c hc

theorem afterSeed_sep (sep rest : List Char) (h : isSep sep = true) :
    ∃ ws, ws.all isspace = true ∧ afterSeed (sep ++ rest) = IStream.ofChars (ws ++ rest) := by
  cases sep with
  | nil => simp [isSep] at h
  | cons c cs =>
    simp only [isSep, Bool.and_eq_true, Bool.or_eq_true, beq_iff_eq] at h
    by_cases hc : c = ','
    · subst hc
      exact ⟨cs, h.2, by simp [afterSeed, dropComma]⟩
    · have hsp : isspace c = true := by
        rcases h.1 with h1 | h1
        · exact absurd h1 hc
        · exact h1
      refine ⟨c :: cs, by simp [hsp, h.2], ?_⟩
      simp [afterSeed, dropComma, hc]

/-- Reading a well-formed seed list: the loop reads its values in the order
written, then goes on with what follows the list. -/
theorem readFrom_wellFormed (T : Target) (rest : List (List Char × Nat)) (ws junk : List Char)
    (n : Nat) (hws : ws.all isspace = true) (hn : n ≤ T.seedMax)
    (hrest : ∀ p ∈ rest, isSep p.1 = true ∧ p.2 ≤ T.seedMax)
    (hjunk : noDigitAhead junk = true) :
    readFrom T (IStream.ofChars (ws ++ (decimal n ++ (sepTail rest ++ junk))))
      = n :: rest.map Prod.snd ++ readFrom T (afterSeed junk) := by
  induction rest generalizing ws n with
  | nil =>
    rw [readFrom_eq]
    simp only [sepTail, List.nil_append]
    rw [nextSeed_decimal T ws junk n hws hn hjunk]
    simp
  | cons p rest ih =>
    obtain ⟨hsep, hp⟩ := hrest p (List.mem_cons_self _ _)
    have hshape : sepTail (p :: rest) ++ junk = p.1 ++ (decimal p.2 ++ (sepTail rest ++ junk)) := by
      simp [sepTail, List.append_assoc]
    rw [readFrom_eq, hshape,
      nextSeed_decimal T ws _ n hws hn (noDigitAhead_sep _ _ hsep)]
    obtain ⟨ws1, hws1, heq⟩ := afterSeed_sep p.1 (decimal p.2 ++ (sepTail rest ++ junk)) hsep
    simp only [heq]
    rw [ih ws1 p.2 hws1 hp (fun q hq => hrest q (List.mem_cons_of_mem _ hq))]
    simp

theorem readSeeds_wellFormed (T : Target) (n0 : Nat) (rest : List (List Char × Nat))
    (junk : List Char) (hn : n0 ≤ T.seedMax)
    (hrest : ∀ p ∈ rest, isSep p.1 = true ∧ p.2 ≤ T.seedMax)
    (hjunk : noDigitAhead junk = true) :
    readSeeds T (seedListText n0 rest ++ junk)
      = seedListValues n0 rest ++ readFrom T (afterSeed junk) := by
  have := readFrom_wellFormed T rest [] junk n0 rfl hn hrest hjunk
  simpa [readSeeds, seedListText, seedListValues, List.append_assoc] using this

/-! ## The comparison `seed.size() != louvainExecutors` -/

theorem Target.toSizeT_eq_iff (T : Target) (n : Nat) (e : Int)
    (hlo : -(2 : Int) ^ 31 ≤ e) (hhi : e < (2 : Int) ^ 31) (hn : n < 2 ^ (T.sizeBits - 1)) :
    n = T.toSizeT e ↔ (n : Int) = e := by
  have hsb := T.size_ge
  have hpow : (2 : Int) ^ T.sizeBits = 2 * (2 : Int) ^ (T.sizeBits - 1) := by
    conv_lhs => rw [show T.sizeBits = (T.sizeBits - 1) + 1 by omega]
    rw [pow_succ]; ring
  have h31 : (2 : Int) ^ 31 ≤ (2 : Int) ^ (T.sizeBits - 1) :=
    pow_le_pow_right₀ (by norm_num) (by omega)
  have hn1 : (n : Int) < (2 : Int) ^ (T.sizeBits - 1) := by exact_mod_cast hn
  unfold Target.toSizeT
  rw [hpow]
  generalize (2 : Int) ^ (T.sizeBits - 1) = M at *
  have h31v : (2 : Int) ^ 31 = 2147483648 := by norm_num
  rw [h31v] at hlo hhi h31
  by_cases h0 : 0 ≤ e
  · rw [Int.emod_eq_of_lt h0 (by omega)]
    omega
  · have : e % (2 * M) = e + 2 * M := by
      rw [← Int.add_emod_self, Int.emod_eq_of_lt (by omega) (by omega)]
    rw [this]
    omega

theorem readSeeds_length (T : Target) (text : List Char) :
    (readSeeds T text).length ≤ text.length :=
  readLoop_length T _ _

theorem parseSeeds_terminates (T : Target) (text : List Char) :
    parseSeeds T text ≠ .diverged := by
  rw [parseSeeds_eq]
  exact insertAll_ne_diverged _ _

theorem parseSeeds_duplicate (T : Target) (text : List Char) :
    parseSeeds T text = .duplicate ↔ ¬ (readSeeds T text).Nodup := by
  rw [parseSeeds_eq, insertAll_duplicate]
  simp

theorem parseSeeds_done (T : Target) (text : List Char) (seed : SeedSet)
    (h : parseSeeds T text = .done seed) :
    seed.Perm (readSeeds T text) ∧ seed.Sorted (· < ·) := by
  rw [parseSeeds_eq] at h
  obtain ⟨hp, hs⟩ := insertAll_done _ [] seed List.sorted_nil h
  refine ⟨hp.trans ?_, hs⟩
  simp

theorem parseSeeds_of_nodup (T : Target) (text : List Char) (h : (readSeeds T text).Nodup) :
    ∃ seed, parseSeeds T text = .done seed := by
  cases hp : parseSeeds T text with
  | duplicate => exact absurd h ((parseSeeds_duplicate T text).mp hp)
  | done seed => exact ⟨seed, rfl⟩
  | diverged => exact absurd hp (parseSeeds_terminates T text)

/-- The seed block on a command line with `-s` and `-e`: it lets the run go on
exactly when the seeds read are pairwise distinct and as many as executors. -/
theorem initSeeds_given {P : Type} (T : Target) (o : Options P) (clock : Nat → Int)
    (text : List Char) (e : Int) (hs : o.louvainSeed = some text)
    (he : o.louvainExecutors = some e) (hrep : o.representable T = true) :
    ((readSeeds T text).Nodup ∧ ((readSeeds T text).length : Int) = e →
      ∃ seed, initSeeds T o clock = .ready seed ∧ seed.Perm (readSeeds T text)
        ∧ seed.Sorted (· < ·))
    ∧ (¬ ((readSeeds T text).Nodup ∧ ((readSeeds T text).length : Int) = e) →
      initSeeds T o clock = .stop (.exit (-1))) := by
  simp only [Options.representable, hs, he, Bool.and_eq_true, decide_eq_true_eq] at hrep
  obtain ⟨⟨hlo, hhi⟩, hlen⟩ := hrep
  have hrl := readSeeds_length T text
  constructor
  · rintro ⟨hnd, hcount⟩
    obtain ⟨seed, hp⟩ := parseSeeds_of_nodup T text hnd
    obtain ⟨hperm, hsorted⟩ := parseSeeds_done T text seed hp
    refine ⟨seed, ?_, hperm, hsorted⟩
    have hl : seed.length = (readSeeds T text).length := hperm.length_eq
    have := (T.toSizeT_eq_iff seed.length e hlo hhi (by omega)).mpr (by rw [hl]; exact hcount)
    simp [initSeeds, hs, he, hp, this]
  · intro hnot
    cases hp : parseSeeds T text with
    | duplicate => simp [initSeeds, hs, he, hp]
    | diverged => exact absurd hp (parseSeeds_terminates T text)
    | done seed =>
      obtain ⟨hperm, hsorted⟩ := parseSeeds_done T text seed hp
      have hl : seed.length = (readSeeds T text).length := hperm.length_eq
      have hnd : (readSeeds T text).Nodup := hperm.nodup_iff.mp hsorted.nodup
      have hne : ¬ seed.length = T.toSizeT e := by
        rw [T.toSizeT_eq_iff seed.length e hlo hhi (by omega), hl]
        exact fun h => hnot ⟨hnd, h⟩
      simp [initSeeds, hs, he, hp, hne]

theorem readFrom_afterSeed_unreadable (T : Target) (junk : List Char)
    (h : unreadable T junk = true) : readFrom T (afterSeed junk) = [] := by
  cases junk with
  | nil => exact readFrom_afterSeed_nil T
  | cons c cs =>
    rw [readFrom_eq]
    simp only [unreadable, Option.isNone_iff_eq_none] at h
    rcases hx : extractUnsigned T (IStream.ofChars (dropComma (c :: cs))) with ⟨s1, v⟩
    rw [hx] at h
    simp only at h
    subst h
    simp [afterSeed, nextSeed, hx]

/-! ## Facts about `main` -/

theorem initSeeds_stop_code {P : Type} (T : Target) (o : Options P) (clock : Nat → Int)
    (r : Outcome) (h : initSeeds T o clock = .stop r) : r = .exit (-1) := by
  unfold initSeeds at h
  split at h
  · rename_i text _
    split at h
    · simpa using h.symm
    · split at h
      · simpa using h.symm
      · rename_i hp
        exact absurd hp (parseSeeds_terminates T text)
      · split at h
        · simpa using h.symm
        · simp at h
  · simp at h

/-- A run whose seed block stops: nothing but the probe of the output file has
happened, and the exit code is -1, or -2 from the earlier output check. -/
theorem main_of_stop {G W P : Type} (T : Target) (o : Options P) (env : Env G W P)
    (h : initSeeds T o env.clock = .stop (.exit (-1))) :
    ((main T (.parsed o) env).2 = .exit (-1) ∨ (main T (.parsed o) env).2 = .exit (-2))
    ∧ (env.outputReadable o.outBCPath = false → (main T (.parsed o) env).2 = .exit (-1))
    ∧ ∀ ev ∈ (main T (.parsed o) env).1, ev = .probeOutput o.outBCPath := by
  unfold main
  split
  · simp
  · rename_i o1 heq
    cases heq
    split
    · by_cases hout : env.outputReadable o.outBCPath = true
      · simp [hout]
      · simp [hout, h]
    · simp

theorem probeOutput_flags {P : Type} (path : String) :
    (Event.probeOutput path : Event P).opensGraph = false
    ∧ (Event.probeOutput path : Event P).isCore = false
    ∧ (Event.probeOutput path : Event P).isWrite = false := ⟨rfl, rfl, rfl⟩

theorem runCore_outcome {G W P : Type} (o : Options P) (env : Env G W P) (p : String)
    (seed : SeedSet) :
    ((runCore o env p seed).2 = .exit 0 ↔
      env.graphOpens p = true ∧ ∃ g bc, env.loadGraph p = some g
        ∧ env.computeBC seed o.louvainPrecision g = some bc)
    ∧ ((runCore o env p seed).2 = .exit 0 ∨ (runCore o env p seed).2 = .exit (-1)
      ∨ (runCore o env p seed).2 = .crashed) := by
  unfold runCore
  by_cases hg : env.graphOpens p = true
  · rcases hl : env.loadGraph p with _ | g
    · simp [hg, hl]
    · rcases hc : env.computeBC seed o.louvainPrecision g with _ | bc
      · simp [hg, hl, hc]
      · simp [hg, hl, hc]
  · simp [hg]

theorem runCore_shape {G W P : Type} (o : Options P) (env : Env G W P) (p : String)
    (seed : SeedSet) :
    ((runCore o env p seed).2 ≠ .exit 0
      ∧ ∀ ev ∈ (runCore o env p seed).1, ev.isWrite = false)
    ∨ ((runCore o env p seed).2 = .exit 0
      ∧ ∃ g bc, env.loadGraph p = some g ∧ env.computeBC seed o.louvainPrecision g = some bc
        ∧ (runCore o env p seed).1 = (.openGraphFile p :: coreSetup seed o.louvainPrecision)
            ++ .computeBCReturned bc.length :: .openOutput o.outBCPath
            :: writeResults env.fmt bc) := by
  unfold runCore
  by_cases hg : env.graphOpens p = true
  · rcases hl : env.loadGraph p with _ | g
    · left; simp [hg, Event.isWrite]
    · rcases hc : env.computeBC seed o.louvainPrecision g with _ | bc
      · left; simp [hg, hc, coreSetup, Event.isWrite]
      · right; simp [hg, hc]
  · left; simp [hg, Event.isWrite]

/-- Every run of `main` either ends otherwise than with exit code 0 and writes
nothing, or ends with exit code 0 after `computeBC` has returned a vector, with
no write before that return and one write per value after it. -/
theorem main_shape {G W P : Type} (T : Target) (cmd : CommandLine P) (env : Env G W P) :
    ((main T cmd env).2 ≠ .exit 0 ∧ ∀ ev ∈ (main T cmd env).1, ev.isWrite = false)
    ∨ ((main T cmd env).2 = .exit 0
      ∧ ∃ o p seed g bc, cmd = .parsed o ∧ o.nonOptionArgs = [p]
        ∧ initSeeds T o env.clock = .ready seed ∧ env.loadGraph p = some g
        ∧ env.computeBC seed o.louvainPrecision g = some bc
        ∧ (main T cmd env).1 = (.probeOutput o.outBCPath :: .openGraphFile p
              :: coreSetup seed o.louvainPrecision)
            ++ .computeBCReturned bc.length :: .openOutput o.outBCPath
            :: writeResults env.fmt bc) := by
  cases cmd with
  | invalidOption => left; simp [main]
  | parsed o =>
    rcases hargs : o.nonOptionArgs with _ | ⟨p, _ | ⟨q, r⟩⟩
    · left; simp [main, hargs]
    · by_cases hout : env.outputReadable o.outBCPath = true
      · left; simp [main, hargs, hout, Event.isWrite]
      · cases hi : initSeeds T o env.clock with
        | stop r =>
          have := initSeeds_stop_code T o env.clock r hi
          subst this
          left; simp [main, hargs, hout, hi, Event.isWrite]
        | ready seed =>
          rcases runCore_shape o env p seed with ⟨h1, h2⟩ | ⟨h1, g, bc, hl, hc, htr⟩
          · left
            simp only [main, hargs, hout, hi, Bool.false_eq_true, if_false]
            refine ⟨h1, fun ev hev => ?_⟩
            rcases List.mem_cons.mp hev with rfl | hev
            · rfl
            · exact h2 ev hev
          · right
            simp only [main, hargs, hout, hi, Bool.false_eq_true, if_false]
            exact ⟨h1, o, p, seed, g, bc, rfl, hargs, hi, hl, hc, by rw [htr]; rfl⟩
    · left; simp [main, hargs]

/-- Every run of `main` ends: with an exit code, or with the failure of the
graph loader or of `computeBC`. -/
theorem main_terminates {G W P : Type} (T : Target) (cmd : CommandLine P) (env : Env G W P) :
    (main T cmd env).2 ≠ .diverged := by
  cases cmd with
  | invalidOption => simp [main]
  | parsed o =>
    rcases hargs : o.nonOptionArgs with _ | ⟨p, _ | ⟨q, r⟩⟩
    · simp [main, hargs]
    · by_cases hout : env.outputReadable o.outBCPath = true
      · simp [main, hargs, hout]
      · cases hi : initSeeds T o env.clock with
        | stop r =>
          have := initSeeds_stop_code T o env.clock r hi
          subst this
          simp [main, hargs, hout, hi]
        | ready seed =>
          simp only [main, hargs, hout, hi, Bool.false_eq_true, if_false]
          rcases (runCore_outcome o env p seed).2 with h | h | h <;> rw [h] <;> simp
    · simp [main, hargs]

theorem mem_before_of_split {α : Type} (A B pre post : List α) (x ev : α) (f : α → Bool)
    (hA : ∀ a ∈ A, f a = false) (hx : f x = false) (hev : f ev = true)
    (h : A ++ x :: B = pre ++ ev :: post) : x ∈ pre := by
  rcases List.append_eq_append_iff.mp h with ⟨a1, rfl, h2⟩ | ⟨c1, rfl, h2⟩
  · cases a1 with
    | nil =>
      simp only [List.nil_append, List.cons.injEq] at h2
      rw [h2.1, hev] at hx
      exact absurd hx (by simp)
    | cons y ys =>
      simp only [List.cons_append, List.cons.injEq] at h2
      rw [h2.1]
      simp
  · cases c1 with
    | nil =>
      simp only [List.nil_append, List.cons.injEq] at h2
      rw [← h2.1, hev] at hx
      exact absurd hx (by simp)
    | cons y ys =>
      simp only [List.cons_append, List.cons.injEq] at h2
      have := hA ev (by rw [h2.1]; simp)
      rw [hev] at this
      exact absurd this (by simp)

theorem setInsert_sorted (x : Nat) (s : SeedSet) (hs : s.Sorted (· < ·)) :
    (setInsert x s).1.Sorted (· < ·) ∧ (setInsert x s).1.length ≤ s.length + 1 := by
  unfold setInsert
  by_cases hm : x ∈ s
  · simp [hm, hs]
  · simp only [hm, if_false, List.orderedInsert_length, Nat.le_refl, and_true]
    have hle : s.Sorted (· ≤ ·) := hs.imp (fun h => Nat.le_of_lt h)
    have h1 : (s.orderedInsert (· ≤ ·) x).Sorted (· ≤ ·) := hle.orderedInsert x s
    have h2 : (s.orderedInsert (· ≤ ·) x).Nodup :=
      (List.perm_orderedInsert (· ≤ ·) x s).nodup_iff.mpr (List.nodup_cons.mpr ⟨hm, hs.nodup⟩)
    exact h1.lt_of_le h2

theorem foldl_setInsert_sorted (f : Nat → Nat) (l : List Nat) (seed : SeedSet)
    (hs : seed.Sorted (· < ·)) :
    (l.foldl (fun acc i => (setInsert (f i) acc).1) seed).Sorted (· < ·)
    ∧ (l.foldl (fun acc i => (setInsert (f i) acc).1) seed).length ≤ seed.length + l.length := by
  induction l generalizing seed with
  | nil => simp [hs]
  | cons i l ih =>
    obtain ⟨h1, h2⟩ := setInsert_sorted (f i) seed hs
    obtain ⟨h3, h4⟩ := ih _ h1
    refine ⟨h3, ?_⟩
    simp only [List.foldl_cons, List.length_cons] at h4 ⊢
    omega

/-- The seed set of the default branch is a set of at most `louvainExecutors`
clock readings; nothing makes it have exactly that many. -/
theorem clockSeeds_sorted (T : Target) (clock : Nat → Int) (e : Int) :
    (clockSeeds T clock e).Sorted (· < ·) ∧ (clockSeeds T clock e).length ≤ e.toNat := by
  have := foldl_setInsert_sorted (fun i => T.toSeed (clock i)) (List.range e.toNat) []
    List.sorted_nil
  simpa [clockSeeds] using this

/-- With `-s` and `-e` the seed set that gets past the seed block has exactly
`louvainExecutors` elements, in ascending order without repetition. -/
theorem given_seeds_validated {P : Type} (T : Target) (o : Options P) (clock : Nat → Int)
    (text : List Char) (e : Int) (seed : SeedSet) (hs : o.louvainSeed = some text)
    (he : o.louvainExecutors = some e) (hrep : o.representable T = true)
    (h : initSeeds T o clock = .ready seed) :
    (seed.length : Int) = e ∧ seed.Sorted (· < ·) := by
  obtain ⟨h1, h2⟩ := initSeeds_given T o clock text e hs he hrep
  by_cases hc : (readSeeds T text).Nodup ∧ ((readSeeds T text).length : Int) = e
  · obtain ⟨seed1, hr, hperm, hsorted⟩ := h1 hc
    rw [h] at hr
    cases hr
    exact ⟨by rw [hperm.length_eq]; exact hc.2, hsorted⟩
  · rw [h2 hc] at h
    cases h

/-- Texts the loop cannot read a further seed from, after the seed just read:
an empty field, a word, a number beyond the seed type, a comma after
whitespace, a lone sign, the end of the string.  A number with a sign is read. -/
theorem unreadable_examples :
    unreadable lp64 ",,1".data = true
    ∧ unreadable lp64 ",x".data = true
    ∧ unreadable lp64 ",18446744073709551616".data = true
    ∧ unreadable llp64 ",4294967296".data = true
    ∧ unreadable lp64 " ,2".data = true
    ∧ unreadable lp64 ",-".data = true
    ∧ unreadable lp64 [] = true
    ∧ unreadable lp64 ",-2".data = false
    ∧ unreadable lp64 ",18446744073709551615".data = false := by
  decide

/-! ## The claims -/

/-- Claim C7. For every non-empty list of pairwise distinct unsigned decimal
integers that fit the seed type, written separated by a comma, by whitespace or
by a comma followed by whitespace, the seed loop reports no duplicate and ends
with exactly the set of those integers. -/
theorem wellFormed_seed_list_parses (T : Target) (n0 : Nat) (rest : List (List Char × Nat))
    (hfit : ∀ v ∈ seedListValues n0 rest, v ≤ T.seedMax)
    (hsep : ∀ p ∈ rest, isSep p.1 = true)
    (hnd : (seedListValues n0 rest).Nodup) :
    ∃ seed, parseSeeds T (seedListText n0 rest) = .done seed
      ∧ seed.Perm (seedListValues n0 rest) ∧ seed.Sorted (· < ·) := by
  have hread : readSeeds T (seedListText n0 rest) = seedListValues n0 rest := by
    have := readSeeds_wellFormed T n0 rest [] (hfit n0 (List.mem_cons_self _ _))
      (fun p hp => ⟨hsep p hp, hfit p.2 (List.mem_cons_of_mem _ (List.mem_map_of_mem _ hp))⟩) rfl
    simpa [readFrom_afterSeed_nil] using this
  obtain ⟨seed, hp⟩ := parseSeeds_of_nodup T (seedListText n0 rest) (by rw [hread]; exact hnd)
  obtain ⟨hperm, hsorted⟩ := parseSeeds_done T _ seed hp
  exact ⟨seed, hp, hread ▸ hperm, hsorted⟩

/-- The list `30,10 20, 7` on LP64: the loop ends with the set of 7, 10, 20, 30. -/
theorem wellFormed_seed_list_parses_witness :
    ((∀ v ∈ seedListValues 30 [([','], 10), ([' '], 20), ([',', ' '], 7)], v ≤ lp64.seedMax)
      ∧ (∀ p ∈ [([','], 10), ([' '], 20), ([',', ' '], 7)], isSep p.1 = true)
      ∧ (seedListValues 30 [([','], 10), ([' '], 20), ([',', ' '], 7)]).Nodup)
    ∧ ∃ seed, parseSeeds lp64 (seedListText 30 [([','], 10), ([' '], 20), ([',', ' '], 7)])
        = .done seed
      ∧ seed.Perm (seedListValues 30 [([','], 10), ([' '], 20), ([',', ' '], 7)])
      ∧ seed.Sorted (· < ·) :=
  ⟨⟨by decide, by decide, by decide⟩,
    wellFormed_seed_list_parses lp64 30 [([','], 10), ([' '], 20), ([',', ' '], 7)]
      (by decide) (by decide) (by decide)⟩

/-- Claim C2. Whenever `-s` and `-e` are both given and the number of seeds
parsed from the seed list differs from the executor count (zero and negative
counts included), `main` returns a nonzero exit code, and nothing has happened
by then beyond the probe of the output file: the graph file is not opened, no
component is built, nothing is written. -/
theorem seed_count_mismatch_rejected {G W P : Type} (T : Target) (o : Options P)
    (env : Env G W P) (text : List Char) (e : Int)
    (hs : o.louvainSeed = some text) (he : o.louvainExecutors = some e)
    (hrep : o.representable T = true)
    (hcount : ∀ seed, parseSeeds T text = .done seed → (seed.length : Int) ≠ e) :
    (∃ code, code ≠ 0 ∧ (main T (.parsed o) env).2 = .exit code)
    ∧ ∀ ev ∈ (main T (.parsed o) env).1,
        ev.opensGraph = false ∧ ev.isCore = false ∧ ev.isWrite = false := by
  have hstop : initSeeds T o env.clock = .stop (.exit (-1)) := by
    apply (initSeeds_given T o env.clock text e hs he hrep).2
    rintro ⟨hnd, hlen⟩
    obtain ⟨seed, hp⟩ := parseSeeds_of_nodup T text hnd
    have hl := (parseSeeds_done T text seed hp).1.length_eq
    exact hcount seed hp (by rw [hl]; exact hlen)
  obtain ⟨h1, _, h3⟩ := main_of_stop T o env hstop
  refine ⟨?_, fun ev hev => ?_⟩
  · rcases h1 with h1 | h1
    · exact ⟨-1, by decide, h1⟩
    · exact ⟨-2, by decide, h1⟩
  · rw [h3 ev hev]
    exact probeOutput_flags _

/-- The seed list `1,2` with `-e -1`: two seeds against a negative executor
count, the run ends with a nonzero exit code. -/
theorem seed_count_mismatch_rejected_witness :
    ((demoOptions (some "1,2".data) (some (-1))).representable lp64 = true
      ∧ ∀ seed, parseSeeds lp64 "1,2".data = .done seed → (seed.length : Int) ≠ -1)
    ∧ ∃ code, code ≠ 0
        ∧ (main lp64 (.parsed (demoOptions (some "1,2".data) (some (-1)))) demoEnv).2
          = .exit code :=
  ⟨⟨by decide, fun seed _ => by omega⟩,
    (seed_count_mismatch_rejected lp64 (demoOptions (some "1,2".data) (some (-1))) demoEnv
      "1,2".data (-1) rfl rfl (by decide) (fun seed _ => by omega)).1⟩

/-- Claim C1, failing input. The seed lists `1,,1` and `1 ,1` name the value 1
twice, and yet with `-e 1` the run opens the graph, builds the evaluator on the
single seed 1, computes and returns 0: the loop takes the first extraction that
fails (at the empty field, at the comma after the blank) for the end of the
list and never reaches the second 1. -/
theorem duplicate_after_empty_field_accepted :
    (¬ (listedSeeds "1,,1".data).Nodup
      ∧ (demoOptions (some "1,,1".data) (some 1)).nonOptionArgs = ["graph.txt"]
      ∧ main lp64 (.parsed (demoOptions (some "1,,1".data) (some 1))) demoEnv
        = ([.probeOutput "bc.txt", .openGraphFile "graph.txt", .buildGraph,
            .newLouvainEvaluator [1] (), .newClusterEvaluator, .newPivotSelector,
            .newSingleSourceBC, .newClusteredBC, .callComputeBC, .computeBCReturned 1,
            .openOutput "bc.txt", .write ['1', '\n']], .exit 0))
    ∧ (¬ (listedSeeds "1 ,1".data).Nodup
      ∧ main lp64 (.parsed (demoOptions (some "1 ,1".data) (some 1))) demoEnv
        = ([.probeOutput "bc.txt", .openGraphFile "graph.txt", .buildGraph,
            .newLouvainEvaluator [1] (), .newClusterEvaluator, .newPivotSelector,
            .newSingleSourceBC, .newClusteredBC, .callComputeBC, .computeBCReturned 1,
            .openOutput "bc.txt", .write ['1', '\n']], .exit 0)) :=
  ⟨⟨by decide, rfl, rfl⟩, by decide, rfl⟩

/-- The duplicate test of the loop at work: when the seed list starts with a
well-formed list of decimal seeds that contains a duplicate, `main` ends with a
nonzero exit code whatever follows that list, and nothing has happened by then
beyond the probe of the output file. -/
theorem wellFormed_duplicate_rejected {G W P : Type} (T : Target) (o : Options P)
    (env : Env G W P) (n0 : Nat) (rest : List (List Char × Nat)) (junk : List Char)
    (hs : o.louvainSeed = some (seedListText n0 rest ++ junk))
    (hfit : ∀ v ∈ seedListValues n0 rest, v ≤ T.seedMax)
    (hsep : ∀ p ∈ rest, isSep p.1 = true)
    (hjunk : noDigitAhead junk = true)
    (hnd : ¬ (seedListValues n0 rest).Nodup) :
    (∃ code, code ≠ 0 ∧ (main T (.parsed o) env).2 = .exit code)
    ∧ ∀ ev ∈ (main T (.parsed o) env).1,
        ev.opensGraph = false ∧ ev.isCore = false ∧ ev.isWrite = false := by
  have hread : ¬ (readSeeds T (seedListText n0 rest ++ junk)).Nodup := by
    rw [readSeeds_wellFormed T n0 rest junk (hfit n0 (List.mem_cons_self _ _))
      (fun p hp => ⟨hsep p hp, hfit p.2 (List.mem_cons_of_mem _ (List.mem_map_of_mem _ hp))⟩)
      hjunk]
    exact fun h => hnd h.of_append_left
  have hstop : initSeeds T o env.clock = .stop (.exit (-1)) := by
    unfold initSeeds
    rw [hs]
    simp only
    split
    · rfl
    · rw [(parseSeeds_duplicate T _).mpr hread]
  obtain ⟨h1, _, h3⟩ := main_of_stop T o env hstop
  refine ⟨?_, fun ev hev => ?_⟩
  · rcases h1 with h1 | h1
    · exact ⟨-1, by decide, h1⟩
    · exact ⟨-2, by decide, h1⟩
  · rw [h3 ev hev]
    exact probeOutput_flags _

/-- Claim C9, counterexample. With `-s 1,2,3,4`, no `-e` and an output file that
is already there, `main` returns -2, not -1: the output check comes first. -/
theorem seeds_without_executors_returns_minus_two :
    ((demoOptions (some "1,2,3,4".data) none).louvainSeed = some "1,2,3,4".data
      ∧ (demoOptions (some "1,2,3,4".data) none).louvainExecutors = none)
    ∧ main lp64 (.parsed (demoOptions (some "1,2,3,4".data) none)) demoEnvOutputExists
      = ([.probeOutput "bc.txt"], .exit (-2))
    ∧ Outcome.exit (-2) ≠ Outcome.exit (-1) :=
  ⟨⟨rfl, rfl⟩, rfl, by decide⟩

/-- Claim C9, amended. Whenever a seed list is given with `-s` and `-e` is not
given, `main` returns a nonzero exit code whatever the seed list contains, also
when it holds exactly 4 distinct seeds: -1 when the output file is not there
yet, and otherwise -1 or the -2 of the earlier output check; the seed list is
not parsed into a run, the graph file is not opened and no component is
built. -/
theorem seeds_without_executors_rejected {G W P : Type} (T : Target) (o : Options P)
    (env : Env G W P) (text : List Char)
    (hs : o.louvainSeed = some text) (he : o.louvainExecutors = none) :
    (env.outputReadable o.outBCPath = false → (main T (.parsed o) env).2 = .exit (-1))
    ∧ ((main T (.parsed o) env).2 = .exit (-1) ∨ (main T (.parsed o) env).2 = .exit (-2))
    ∧ ∀ ev ∈ (main T (.parsed o) env).1,
        ev.opensGraph = false ∧ ev.isCore = false ∧ ev.isWrite = false := by
  have hstop : initSeeds T o env.clock = .stop (.exit (-1)) := by
    simp [initSeeds, hs, he]
  obtain ⟨h1, h2, h3⟩ := main_of_stop T o env hstop
  refine ⟨h2, h1, fun ev hev => ?_⟩
  rw [h3 ev hev]
  exact probeOutput_flags _

/-- The seed list `1,2,3,4` without `-e`, output file not there: exit code -1. -/
theorem seeds_without_executors_rejected_witness :
    ((demoOptions (some "1,2,3,4".data) none).louvainSeed = some "1,2,3,4".data
      ∧ (demoOptions (some "1,2,3,4".data) none).louvainExecutors = none)
    ∧ (main lp64 (.parsed (demoOptions (some "1,2,3,4".data) none)) demoEnv).2 = .exit (-1) :=
  ⟨⟨rfl, rfl⟩,
    (seeds_without_executors_rejected lp64 (demoOptions (some "1,2,3,4".data) none) demoEnv
      "1,2,3,4".data rfl rfl).1 rfl⟩

/-- Claim C3, failing input. Without `-s` the seeds are clock readings put into
a set, and nothing checks how many remain.  With `-e 2` (and with the default of
4 executors) on a clock that shows the same tick twice, the
`LouvainEvaluator` is built on the single seed 1000; with `-e -1` it is built
on the empty set.  In each run the seed set does not have `louvainExecutors`
elements, and the run goes on to `computeBC` and returns 0. -/
theorem default_seeds_fewer_than_executors :
    main lp64 (.parsed (demoOptions none (some 2))) demoEnvCoarseClock
      = ([.probeOutput "bc.txt", .openGraphFile "graph.txt", .buildGraph,
          .newLouvainEvaluator [1000] (), .newClusterEvaluator, .newPivotSelector,
          .newSingleSourceBC, .newClusteredBC, .callComputeBC, .computeBCReturned 1,
          .openOutput "bc.txt", .write ['1', '0', '0', '0', '\n']], .exit 0)
    ∧ main lp64 (.parsed (demoOptions none none)) demoEnvCoarseClock
      = ([.probeOutput "bc.txt", .openGraphFile "graph.txt", .buildGraph,
          .newLouvainEvaluator [1000] (), .newClusterEvaluator, .newPivotSelector,
          .newSingleSourceBC, .newClusteredBC, .callComputeBC, .computeBCReturned 1,
          .openOutput "bc.txt", .write ['1', '0', '0', '0', '\n']], .exit 0)
    ∧ main lp64 (.parsed (demoOptions none (some (-1)))) demoEnv
      = ([.probeOutput "bc.txt", .openGraphFile "graph.txt", .buildGraph,
          .newLouvainEvaluator [] (), .newClusterEvaluator, .newPivotSelector,
          .newSingleSourceBC, .newClusteredBC, .callComputeBC, .computeBCReturned 0,
          .openOutput "bc.txt"], .exit 0) :=
  ⟨rfl, rfl, rfl⟩

/-- Claim C5. On every run of `main` that ends otherwise than with exit code 0
(a nonzero exit code, or a failure of the graph loader or of `computeBC`) the
output file is not opened for writing and nothing is written to it; and in
every run, whatever is done to the output file for writing comes after the
return of `computeBC`. -/
theorem no_write_without_result {G W P : Type} (T : Target) (cmd : CommandLine P)
    (env : Env G W P) :
    ((main T cmd env).2 ≠ .exit 0 → ∀ ev ∈ (main T cmd env).1, ev.isWrite = false)
    ∧ ∀ pre ev post, (main T cmd env).1 = pre ++ ev :: post → ev.isWrite = true →
        ∃ r ∈ pre, r.isReturn = true := by
  rcases main_shape T cmd env with ⟨h1, h2⟩ | ⟨h1, o, p, seed, g, bc, _, _, _, _, _, htr⟩
  · refine ⟨fun _ => h2, fun pre ev post hsplit hev => ?_⟩
    have := h2 ev (by rw [hsplit]; simp)
    rw [hev] at this
    exact absurd this (by simp)
  · refine ⟨fun h => absurd h1 h, fun pre ev post hsplit hev => ?_⟩
    rw [htr] at hsplit
    refine ⟨.computeBCReturned bc.length, ?_, rfl⟩
    refine mem_before_of_split _ _ pre post _ ev Event.isWrite ?_ rfl hev hsplit
    intro a ha
    simp only [coreSetup, List.mem_cons, List.mem_singleton, List.not_mem_nil, or_false] at ha
    rcases ha with rfl | rfl | rfl | rfl | rfl | rfl | rfl | rfl | rfl <;> rfl

/-- What happens when the output path cannot be opened for writing (as with
`-o nodir/bc.txt`): the writer inserts the same lines into the stream, the
stream drops them, the file gets nothing, and `main` returns 0 all the same. -/
theorem unopenable_output_drops_results :
    (main lp64 (.parsed (demoOptions (some "5,3".data) (some 2))) demoEnvNoOutput).2 = .exit 0
    ∧ linesOf (emitted
        (main lp64 (.parsed (demoOptions (some "5,3".data) (some 2))) demoEnvNoOutput).1)
      = [['3'], ['5']]
    ∧ fileContent demoEnvNoOutput (demoOptions (some "5,3".data) (some 2))
        (main lp64 (.parsed (demoOptions (some "5,3".data) (some 2))) demoEnvNoOutput).1 = [] :=
  ⟨rfl, by decide, rfl⟩

/-- Claim C8, failing inputs. Taking the seeds as they are written in the list,
the exit code goes against the claim in both directions.  With `-s 1,,1 -e 1`
the seeds given are not pairwise distinct and are two for one executor, and
`main` returns 0.  With `-s "7 ,8" -e 2` the seeds given are two distinct
seeds for two executors, every other check would pass, and `main` returns -1:
the loop skips a comma only directly after a number, takes the failed
extraction at the comma for the end of the list and is left with one seed. -/
theorem exit_code_against_written_seeds :
    (¬ (listedSeeds "1,,1".data).Nodup
      ∧ ((listedSeeds "1,,1".data).length : Int) ≠ 1
      ∧ (main lp64 (.parsed (demoOptions (some "1,,1".data) (some 1))) demoEnv).2 = .exit 0)
    ∧ (listedSeeds "7 ,8".data = [7, 8]
      ∧ (listedSeeds "7 ,8".data).Nodup
      ∧ ((listedSeeds "7 ,8".data).length : Int) = 2
      ∧ parseSeeds lp64 "7 ,8".data = .done [7]
      ∧ main lp64 (.parsed (demoOptions (some "7 ,8".data) (some 2))) demoEnv
        = ([.probeOutput "bc.txt"], .exit (-1))
      ∧ (main lp64 (.parsed (demoOptions (some "7,8".data) (some 2))) demoEnv).2 = .exit 0) :=
  ⟨⟨by decide, by decide, rfl⟩, by decide, by decide, by decide, by decide, rfl, rfl⟩

/-- Claim C10. When a well-formed seed list is followed by something the loop
cannot read a further seed from (an empty field as in `1,,1`, a word as in
`1,2,x`, a number that does not fit the seed type), the loop stops there
without an error: the seeds read are exactly those of the well-formed list,
the loop ends as it does on that list alone, and when those seeds are pairwise
distinct and as many as executors the run gets past the seed block with the
set of those seeds and goes on to open the graph.  When already the first
extraction fails, the loop ends with the empty set. -/
theorem unreadable_rest_ignored {P : Type} (T : Target) (o : Options P) (n0 : Nat)
    (rest : List (List Char × Nat)) (junk : List Char) (e : Int)
    (hfit : ∀ v ∈ seedListValues n0 rest, v ≤ T.seedMax)
    (hsep : ∀ p ∈ rest, isSep p.1 = true)
    (hjunk : noDigitAhead junk = true)
    (hbad : unreadable T junk = true)
    (hs : o.louvainSeed = some (seedListText n0 rest ++ junk))
    (he : o.louvainExecutors = some e)
    (hrep : o.representable T = true) :
    readSeeds T (seedListText n0 rest ++ junk) = seedListValues n0 rest
    ∧ parseSeeds T (seedListText n0 rest ++ junk) = parseSeeds T (seedListText n0 rest)
    ∧ ((seedListValues n0 rest).Nodup → ((seedListValues n0 rest).length : Int) = e →
        ∃ seed : SeedSet, seed.Perm (seedListValues n0 rest)
          ∧ parseSeeds T (seedListText n0 rest ++ junk) = .done seed
          ∧ ∀ (G W : Type) (env : Env G W P) (p : String), o.nonOptionArgs = [p] →
              env.outputReadable o.outBCPath = false →
              main T (.parsed o) env
                = (.probeOutput o.outBCPath :: (runCore o env p seed).1,
                    (runCore o env p seed).2))
    ∧ (∀ text, (extractUnsigned T (IStream.ofChars text)).2 = none →
        parseSeeds T text = .done []) := by
  have hrest : ∀ p ∈ rest, isSep p.1 = true ∧ p.2 ≤ T.seedMax :=
    fun p hp => ⟨hsep p hp, hfit p.2 (List.mem_cons_of_mem _ (List.mem_map_of_mem _ hp))⟩
  have hn0 := hfit n0 (List.mem_cons_self _ _)
  have hread : readSeeds T (seedListText n0 rest ++ junk) = seedListValues n0 rest := by
    rw [readSeeds_wellFormed T n0 rest junk hn0 hrest hjunk,
      readFrom_afterSeed_unreadable T junk hbad, List.append_nil]
  have hread0 : readSeeds T (seedListText n0 rest) = seedListValues n0 rest := by
    have := readSeeds_wellFormed T n0 rest [] hn0 hrest rfl
    simpa [readFrom_afterSeed_nil] using this
  refine ⟨hread, by rw [parseSeeds_eq, parseSeeds_eq, hread, hread0], fun hnd hlen => ?_,
    fun text htext => ?_⟩
  swap
  · rcases hx : extractUnsigned T (IStream.ofChars text) with ⟨s1, v⟩
    rw [hx] at htext
    simp only at htext
    subst htext
    simp [parseSeeds, seedLoop, hx]
  obtain ⟨seed, hp⟩ := parseSeeds_of_nodup T (seedListText n0 rest ++ junk)
    (by rw [hread]; exact hnd)
  obtain ⟨hperm, _⟩ := parseSeeds_done T _ seed hp
  rw [hread] at hperm
  refine ⟨seed, hperm, hp, fun G W env p hargs hout => ?_⟩
  obtain ⟨seed1, hready, _, _⟩ := (initSeeds_given T o env.clock _ e hs he hrep).1
    ⟨by rw [hread]; exact hnd, by rw [hread]; exact hlen⟩
  have hseed : seed1 = seed := by
    have h := hready
    simp only [initSeeds, hs, he, hp] at h
    split at h
    · cases h
    · cases h
      rfl
  subst hseed
  simp [main, hargs, hout, hready]

/-- The seed list `1,,1` with `-e 1` on LP64: the loop reads the seed 1 and
stops at the empty field, and the run gets past the seed block. -/
theorem unreadable_rest_ignored_witness :
    (noDigitAhead ",,1".data = true ∧ unreadable lp64 ",,1".data = true
      ∧ seedListText 1 [] ++ ",,1".data = "1,,1".data)
    ∧ readSeeds lp64 (seedListText 1 [] ++ ",,1".data) = seedListValues 1 []
    ∧ parseSeeds lp64 (seedListText 1 [] ++ ",,1".data) = parseSeeds lp64 (seedListText 1 []) :=
  ⟨⟨by decide, by decide, by decide⟩,
    (unreadable_rest_ignored lp64 (demoOptions (some (seedListText 1 [] ++ ",,1".data)) (some 1))
      1 [] ",,1".data 1 (by decide) (by decide) (by decide) (by decide) rfl rfl (by decide)).1,
    (unreadable_rest_ignored lp64 (demoOptions (some (seedListText 1 [] ++ ",,1".data)) (some 1))
      1 [] ",,1".data 1 (by decide) (by decide) (by decide) (by decide) rfl rfl (by decide)).2.1⟩

end FastBC
